import Mathlib

/-!
Shallow embedding of the pod-distribution core of the mtg-pod-system
repository (src/mtg_pod_system/core/pod_randomizer.py) together with the
history-trimming logic of the terminal interface
(src/mtg_pod_system/interfaces/terminal_app.py, save_to_history).

Python integers are modelled as Lean Int; Python floor division a // b and
a % b are Int.fdiv / Int.fmod (same floor semantics); a Python
ZeroDivisionError is modelled by returning none from an Option-valued
function.  Python list slices xs[a : a + s] with 0 ≤ a, 0 ≤ s are
(xs.drop a).take s.  The while-loop of _simple_distribution is modelled
with explicit fuel; exhausting the fuel (which never happens for
target_size ≥ 1) models divergence and yields none.

random.shuffle permutes the participant list in place; the functions below
take the already-shuffled list as input, and theorems that speak about the
original input quantify over an arbitrary permutation of it.
-/

namespace MtgPod

/-- The Pod dataclass: id, players, size (Python ints and list of str). -/
structure Pod where
  id : Int
  players : List String
  size : Int
deriving Repr, DecidableEq

/-- Concatenation of the player lists of a list of pods (the multiset union
of the pods' players, read off in order). -/
def joinPlayers (pods : List Pod) : List String :=
  pods.flatMap (fun p => p.players)

/-- min_pods = (total_players + max_size - 1) // max_size, Python floor
division.  Defined only for max_size ≠ 0 (Python raises ZeroDivisionError
at 0); the caller checks. -/
def min_pods_of (n m : Int) : Int := (n + m - 1).fdiv m

/-- max_pods = (total_players + target_size - 1) // target_size. -/
def max_pods_of (n t : Int) : Int := (n + t - 1).fdiv t

/-- The body of the inner loop of _calculate_pod_distribution: for indices
i, i+1, ..., i+c-1 build the pods, threading current_index (idx).  A pod's
raw size is base + 1 for indices below remainder, else base; a raw size of
0 is skipped (continue); otherwise the size is clamped to
max(3, min(size, max_size)) and the next slice of players is taken.
Returns the built pods and the final current_index. -/
def build_aux (players : List String) (m base rem : Int) :
    Nat → Nat → Int → List Pod × Int
  | _, 0, idx => ([], idx)
  | i, c + 1, idx =>
    let s : Int := base + (if (i : Int) < rem then 1 else 0)
    if s = 0 then
      build_aux players m base rem (i + 1) c idx
    else
      let sz : Int := max 3 (min s m)
      let pp : List String := (players.drop idx.toNat).take sz.toNat
      let rest := build_aux players m base rem (i + 1) c (idx + sz)
      (⟨(i : Int) + 1, pp, (pp.length : Int)⟩ :: rest.1, rest.2)

/-- One candidate pod count num_pods = k: base = total // k,
remainder = total % k, then the inner loop over range(k).
(Python range over a negative k is empty, hence k.toNat.) -/
def build_candidate (players : List String) (m k : Int) : List Pod × Int :=
  let n : Int := (players.length : Int)
  build_aux players m (n.fdiv k) (n.fmod k) 0 k.toNat 0

/-- The acceptance test of the search loop: the candidate k is not the
skipped value 0 and its final current_index reaches total_players. -/
def accepts_candidate (players : List String) (m k : Int) : Bool :=
  decide (k ≠ 0) && decide ((players.length : Int) ≤ (build_candidate players m k).2)

/-- range(lo, hi + 1) over Python ints, in ascending order. -/
def candidate_range (lo hi : Int) : List Int :=
  (List.range (hi + 1 - lo).toNat).map (fun j => lo + Int.ofNat j)

/-- One iteration structure of the while-loop of _simple_distribution,
with fuel.  accRev holds the pods built so far in reverse (head = most
recent pod, Python pods[-1]); the result is reversed back on exit.
The merge branch (remaining < 3, pods nonempty, fits under max_size)
extends the previous pod and breaks; otherwise a pod of
min(target_size, remaining) — or of remaining, in the undersized case —
is emitted and the loop continues. -/
def simple_aux (t m : Int) : Nat → List Pod → Int → List String → Option (List Pod)
  | 0, accRev, _, rest =>
    match rest with
    | [] => some accRev.reverse
    | _ :: _ => none
  | fuel + 1, accRev, podId, rest =>
    match rest with
    | [] => some accRev.reverse
    | _ :: _ =>
      let remaining : Int := (rest.length : Int)
      match accRev with
      | lastPod :: prevRev =>
        if remaining < 3 ∧ (lastPod.players.length : Int) + remaining ≤ m then
          some ((⟨lastPod.id, lastPod.players ++ rest,
            ((lastPod.players ++ rest).length : Int)⟩ :: prevRev).reverse)
        else
          let podSize : Int :=
            if remaining < 3 then
              (if 0 < remaining then remaining else min t remaining)
            else min t remaining
          let pp := rest.take podSize.toNat
          simple_aux t m fuel (⟨podId, pp, (pp.length : Int)⟩ :: lastPod :: prevRev)
            (podId + 1) (rest.drop podSize.toNat)
      | [] =>
        let podSize : Int := min t remaining
        let pp := rest.take podSize.toNat
        simple_aux t m fuel (⟨podId, pp, (pp.length : Int)⟩ :: accRev)
          (podId + 1) (rest.drop podSize.toNat)

/-- _simple_distribution: the fallback sequential distributor.  Fuel
players.length + 1 covers every terminating run (each iteration consumes
at least one player whenever target_size ≥ 1); none models divergence. -/
def simple_distribution (players : List String) (t m : Int) : Option (List Pod) :=
  simple_aux t m (players.length + 1) [] 1 players

/-- _calculate_pod_distribution: compute min_pods and max_pods (the two
floor divisions raise ZeroDivisionError — none — when their divisor is 0),
scan the candidate pod counts in ascending order for the first accepted
one, and fall back to _simple_distribution when the scan fails or the
accepted candidate produced no pods. -/
def calculate_pod_distribution (players : List String) (t m : Int) :
    Option (List Pod) :=
  if m = 0 then none
  else if t = 0 then none
  else
    let n : Int := (players.length : Int)
    match (candidate_range (min_pods_of n m) (max_pods_of n t)).find?
        (accepts_candidate players m) with
    | some k =>
      let pods := (build_candidate players m k).1
      if pods.isEmpty then simple_distribution players t m else some pods
    | none => simple_distribution players t m

/-- create_pods: empty input short-circuits to []; otherwise target_size
is clamped to max(3, min(target_size, max_size)) and the distribution is
computed over the shuffled list (taken here as the input order; shuffling
is an arbitrary permutation quantified at the theorems). -/
def create_pods (players : List String) (t m : Int) : Option (List Pod) :=
  if players = [] then some []
  else calculate_pod_distribution players (max 3 (min t m)) m

/-- The dict returned by get_statistics.  The empty-pods early return
carries no min/max/sizes keys, modelled as none. -/
structure PodStats where
  total_pods : Int
  total_players : Int
  avg_pod_size : ℚ
  min_pod_size : Option Int
  max_pod_size : Option Int
  pod_sizes : Option (List Int)
deriving Repr, DecidableEq

/-- get_statistics: totals, float average (rational here; the division is
exact in the claims considered), and min/max over the nonempty size list. -/
def get_statistics (pods : List Pod) : PodStats :=
  match pods with
  | [] => ⟨0, 0, 0, none, none, none⟩
  | _ :: _ =>
    let sizes : List Int := pods.map (fun p => p.size)
    let total : Int := sizes.sum
    ⟨(pods.length : Int), total, (total : ℚ) / ((pods.length : Int) : ℚ),
      sizes.min?, sizes.max?, some sizes⟩

/-! ### Reference model for get_history (claim C9)

Python objects live on a heap; self.history is a list object whose
elements are references to list-of-Pod objects.  listCells is the heap of
list objects (each holding addresses of pod-list objects), podCells the
heap of list-of-Pod objects.  Addresses are indices. -/

structure HistoryMem where
  listCells : List (List Nat)
  podCells : List (List Pod)
deriving Repr, DecidableEq

/-- Read a list object from the heap. -/
def readList (mem : HistoryMem) (a : Nat) : List Nat :=
  mem.listCells.getD a []

/-- Mutate a list object in place (e.g. append/remove on the caller's
side), leaving every other object untouched. -/
def writeList (mem : HistoryMem) (a : Nat) (v : List Nat) : HistoryMem :=
  ⟨mem.listCells.set a v, mem.podCells⟩

/-- Mutate a list-of-Pod object in place (e.g. pods_list.append(...) or a
mutation of a Pod it holds), leaving every other object untouched. -/
def writePods (mem : HistoryMem) (a : Nat) (v : List Pod) : HistoryMem :=
  ⟨mem.listCells, mem.podCells.set a v⟩

/-- The contents of the internal history log as the caller observes it:
the pod lists referenced from the history list object at address a. -/
def renderHistory (mem : HistoryMem) (a : Nat) : List (List Pod) :=
  (readList mem a).map (fun p => mem.podCells.getD p [])

/-- get_history: return self.history.copy() — allocate a fresh list object
holding the same element references, and hand back its address. -/
def get_history (mem : HistoryMem) (selfHist : Nat) : HistoryMem × Nat :=
  (⟨mem.listCells ++ [readList mem selfHist], mem.podCells⟩, mem.listCells.length)

/-! ### save_to_history trimming (claim C10) -/

/-- Python xs[i:] for an arbitrary Int i (negative indices count from the
end; an out-of-range start clamps). -/
def pyTailSlice {α : Type} (i : Int) (xs : List α) : List α :=
  if i < 0 then xs.drop ((xs.length : Int) + i).toNat
  else xs.drop i.toNat

/-- One save_to_history call, its trimming part: append the new entry,
then, if the history exceeds max_items, keep history[-max_items:]. -/
def save_to_history_step {α : Type} (maxItems : Int) (history : List α)
    (entry : α) : List α :=
  let h := history ++ [entry]
  if maxItems < (h.length : Int) then pyTailSlice (-maxItems) h else h

/-! ## Auxiliary notions used by the proofs -/

/-- The raw size of the i-th pod of a candidate: base + 1 below the
remainder, base otherwise. -/
def rawSize (base rem : Int) (i : Nat) : Int :=
  base + (if (i : Int) < rem then 1 else 0)

/-- The clamped size max(3, min(raw, max_size)). -/
def clampSize (m base rem : Int) (i : Nat) : Int :=
  max 3 (min (rawSize base rem i) m)

/-- Sum of f over the index window [i, i + c). -/
def sum_sizes (f : Nat → Int) : Nat → Nat → Int
  | _, 0 => 0
  | i, c + 1 => f i + sum_sizes f (i + 1) c

/-! ### Sum lemmas -/

theorem sum_sizes_nonneg (f : Nat → Int) (hf : ∀ j, 0 ≤ f j) :
    ∀ (c i : Nat), 0 ≤ sum_sizes f i c := by
  intro c
  induction c with
  | zero => intro i; simp [sum_sizes]
  | succ c ih =>
    intro i
    have := hf i
    have := ih (i + 1)
    simp only [sum_sizes]
    omega

theorem sum_sizes_le_of_pointwise (f g : Nat → Int) (h : ∀ j, f j ≤ g j) :
    ∀ (c i : Nat), sum_sizes f i c ≤ sum_sizes g i c := by
  intro c
  induction c with
  | zero => intro i; simp [sum_sizes]
  | succ c ih =>
    intro i
    have := h i
    have := ih (i + 1)
    simp only [sum_sizes]
    omega

theorem sum_sizes_const (f : Nat → Int) (a : Int) (h : ∀ j, f j = a) :
    ∀ (c i : Nat), sum_sizes f i c = (c : Int) * a := by
  intro c
  induction c with
  | zero => intro i; simp [sum_sizes]
  | succ c ih =>
    intro i
    have h1 := h i
    have h2 := ih (i + 1)
    have hc : ((c : Int) + 1) * a = (c : Int) * a + a := by ring
    simp only [sum_sizes]
    push_cast
    omega

theorem sum_sizes_ge_const (f : Nat → Int) (a : Int) (h : ∀ j, a ≤ f j) :
    ∀ (c i : Nat), (c : Int) * a ≤ sum_sizes f i c := by
  intro c
  induction c with
  | zero => intro i; simp [sum_sizes]
  | succ c ih =>
    intro i
    have h1 := h i
    have h2 := ih (i + 1)
    have hc : ((c : Int) + 1) * a = (c : Int) * a + a := by ring
    simp only [sum_sizes]
    push_cast
    omega

theorem sum_sizes_split (f : Nat → Int) :
    ∀ (a b i : Nat),
      sum_sizes f i (a + b) = sum_sizes f i a + sum_sizes f (i + a) b := by
  intro a
  induction a with
  | zero => intro b i; simp [sum_sizes]
  | succ a ih =>
    intro b i
    have h1 : a + 1 + b = (a + b) + 1 := by omega
    rw [h1]
    simp only [sum_sizes, ih b (i + 1)]
    have h2 : i + 1 + a = i + (a + 1) := by omega
    rw [h2]
    ring

/-- On a window wholly past the remainder, every raw size is base. -/
theorem sum_rawSize_of_ge (base rem : Int) :
    ∀ (c i : Nat), rem ≤ (i : Int) →
      sum_sizes (rawSize base rem) i c = (c : Int) * base := by
  intro c
  induction c with
  | zero => intro i _; simp [sum_sizes]
  | succ c ih =>
    intro i hi
    have h2 := ih (i + 1) (by push_cast; omega)
    have hni : ¬ ((i : Int) < rem) := by omega
    have hc : ((c : Int) + 1) * base = (c : Int) * base + base := by ring
    simp only [sum_sizes, rawSize, if_neg hni]
    push_cast
    omega

/-- On a window containing the remainder boundary, the raw sizes sum to
c * base plus the part of the remainder inside the window. -/
theorem sum_rawSize_of_le (base rem : Int) :
    ∀ (c i : Nat), (i : Int) ≤ rem → rem ≤ (i : Int) + c →
      sum_sizes (rawSize base rem) i c = (c : Int) * base + (rem - i) := by
  intro c
  induction c with
  | zero => intro i h1 h2; simp [sum_sizes]; omega
  | succ c ih =>
    intro i h1 h2
    have hc : ((c : Int) + 1) * base = (c : Int) * base + base := by ring
    by_cases h : (i : Int) < rem
    · have h3 := ih (i + 1) (by push_cast; omega) (by push_cast at h2 ⊢; omega)
      simp only [sum_sizes, rawSize, if_pos h]
      push_cast at h3 ⊢
      omega
    · have h3 := sum_rawSize_of_ge base rem c (i + 1) (by push_cast; omega)
      simp only [sum_sizes, rawSize, if_neg h]
      push_cast at h3 ⊢
      omega

theorem sum_rawSize_full (base rem : Int) (k : Nat)
    (hrem0 : 0 ≤ rem) (hremk : rem ≤ (k : Int)) :
    sum_sizes (rawSize base rem) 0 k = (k : Int) * base + rem := by
  have := sum_rawSize_of_le base rem k 0 (by omega) (by push_cast; omega)
  simpa using this

theorem rawSize_pos (base rem : Int) (hbase : 1 ≤ base) (i : Nat) :
    1 ≤ rawSize base rem i := by
  simp only [rawSize]
  by_cases h : (i : Int) < rem <;> simp [h] <;> omega

theorem clampSize_ge_three (m base rem : Int) (i : Nat) :
    3 ≤ clampSize m base rem i := by
  simp [clampSize]

theorem clampSize_le_m (m base rem : Int) (hm : 3 ≤ m)
    (i : Nat) : clampSize m base rem i ≤ m := by
  simp only [clampSize]
  omega

theorem clampSize_ge_raw (m base rem : Int) (i : Nat)
    (h : rawSize base rem i ≤ m) : rawSize base rem i ≤ clampSize m base rem i := by
  simp only [clampSize]
  omega

/-- Splitting a take at an intermediate point. -/
theorem take_add_split {α : Type} (l : List α) (a b : Nat) :
    l.take (a + b) = l.take a ++ (l.drop a).take b := by
  rw [List.take_drop]
  have h1 : (l.take (a + b)).take a = l.take a := by
    rw [List.take_take]
    congr 1
    omega
  rw [← h1]
  exact (List.take_append_drop a (l.take (a + b))).symm

/-! ### Master characterization of the inner candidate-building loop

When base ≥ 1 no index is skipped, and the loop produces exactly c pods,
whose player lists are the consecutive clamped-size slices of the player
list; the final current_index is the starting index plus the sum of the
clamped sizes. -/

theorem build_aux_spec (players : List String) (m base rem : Int)
    (hbase : 1 ≤ base) :
    ∀ (c i : Nat) (idx : Int), 0 ≤ idx →
      (build_aux players m base rem i c idx).1.length = c ∧
      (build_aux players m base rem i c idx).2
        = idx + sum_sizes (clampSize m base rem) i c ∧
      joinPlayers (build_aux players m base rem i c idx).1
        = (players.drop idx.toNat).take (sum_sizes (clampSize m base rem) i c).toNat ∧
      ∀ (j : Nat), j < c →
        (build_aux players m base rem i c idx).1.getD j ⟨0, [], 0⟩
          = Pod.mk ((i : Int) + (j : Int) + 1)
              ((players.drop (idx + sum_sizes (clampSize m base rem) i j).toNat).take
                (clampSize m base rem (i + j)).toNat)
              (((players.drop (idx + sum_sizes (clampSize m base rem) i j).toNat).take
                (clampSize m base rem (i + j)).toNat).length) := by
  intro c
  induction c with
  | zero =>
    intro i idx hidx
    refine ⟨rfl, by simp [build_aux, sum_sizes], by simp [build_aux, sum_sizes, joinPlayers], ?_⟩
    intro j hj
    omega
  | succ c ih =>
    intro i idx hidx
    have hraw := rawSize_pos base rem hbase i
    have hs : ¬ (base + (if (i : Int) < rem then 1 else 0) = 0) := by
      simp only [rawSize] at hraw
      omega
    have hszc : max 3 (min (base + (if (i : Int) < rem then 1 else 0)) m)
        = clampSize m base rem i := rfl
    have hsz3 : 3 ≤ clampSize m base rem i := clampSize_ge_three m base rem i
    have hidx2 : 0 ≤ idx + clampSize m base rem i := by omega
    obtain ⟨ihlen, ihfin, ihjoin, ihget⟩ := ih (i + 1) (idx + clampSize m base rem i) hidx2
    have hSnn : 0 ≤ sum_sizes (clampSize m base rem) (i + 1) c :=
      sum_sizes_nonneg _ (fun j => by have := clampSize_ge_three m base rem j; omega) c (i + 1)
    have hsum : sum_sizes (clampSize m base rem) i (c + 1)
        = clampSize m base rem i + sum_sizes (clampSize m base rem) (i + 1) c := rfl
    simp only [build_aux, if_neg hs, hszc]
    refine ⟨?_, ?_, ?_, ?_⟩
    · simp [ihlen]
    · rw [ihfin, hsum]
      ring
    · simp only [joinPlayers] at ihjoin ⊢
      simp only [List.flatMap_cons]
      rw [ihjoin, hsum]
      have h1 : (clampSize m base rem i + sum_sizes (clampSize m base rem) (i + 1) c).toNat
          = (clampSize m base rem i).toNat
            + (sum_sizes (clampSize m base rem) (i + 1) c).toNat := by omega
      have h2 : (idx + clampSize m base rem i).toNat
          = idx.toNat + (clampSize m base rem i).toNat := by omega
      rw [h1, take_add_split, List.drop_drop, ← h2]
    · intro j hj
      match j with
      | 0 =>
        simp only [List.getD_cons_zero, sum_sizes]
        have : idx + 0 = idx := by ring
        rw [this]
        rfl
      | j + 1 =>
        have hj' : j < c := by omega
        have := ihget j hj'
        simp only [List.getD_cons_succ]
        have hidcast : ((i + 1 : Nat) : Int) + (j : Int) + 1
            = (i : Int) + ((j + 1 : Nat) : Int) + 1 := by push_cast; ring
        have hsum2 : sum_sizes (clampSize m base rem) i (j + 1)
            = clampSize m base rem i + sum_sizes (clampSize m base rem) (i + 1) j := rfl
        have hidx3 : idx + clampSize m base rem i
              + sum_sizes (clampSize m base rem) (i + 1) j
            = idx + sum_sizes (clampSize m base rem) i (j + 1) := by
          rw [hsum2]; ring
        have hix : i + 1 + j = i + (j + 1) := by omega
        rw [this, hidcast, hidx3, hix]

/-! ### Ceiling-division arithmetic -/

theorem nat_ceil_mul_ge (a b : Nat) (ha : 0 < a) (hb : 0 < b) :
    a ≤ ((a + b - 1) / b) * b := by
  by_contra hcon
  push_neg at hcon
  have hqb : ((a + b - 1) / b + 1) * b = ((a + b - 1) / b) * b + b := by ring
  have h1 : ((a + b - 1) / b + 1) * b ≤ a + b - 1 := by omega
  have h2 : (a + b - 1) / b + 1 ≤ (a + b - 1) / b :=
    (Nat.le_div_iff_mul_le hb).mpr h1
  omega

theorem nat_ceil_le (a b j : Nat) (hb : 0 < b) (h : a ≤ j * b) :
    (a + b - 1) / b ≤ j := by
  have hjb : (j + 1) * b = j * b + b := by ring
  have h1 : a + b - 1 < (j + 1) * b := by omega
  have h2 := (Nat.div_lt_iff_lt_mul hb).mpr h1
  omega

/-- min_pods over nonnegative n and positive m is Nat ceiling division. -/
theorem min_pods_of_eq_nat (n m : Int) (hn : 0 ≤ n) (hm : 0 < m) :
    min_pods_of n m = ((n.toNat + m.toNat - 1) / m.toNat : Nat) := by
  unfold min_pods_of
  rw [Int.fdiv_eq_ediv _ (le_of_lt hm)]
  have h1 : (n + m - 1 : Int) = ((n.toNat + m.toNat - 1 : Nat) : Int) := by omega
  have h2 : m = ((m.toNat : Nat) : Int) := by omega
  rw [h1, h2, ← Int.ofNat_ediv]
  rfl

theorem max_pods_of_eq_nat (n t : Int) (hn : 0 ≤ n) (ht : 0 < t) :
    max_pods_of n t = ((n.toNat + t.toNat - 1) / t.toNat : Nat) := by
  unfold max_pods_of
  rw [Int.fdiv_eq_ediv _ (le_of_lt ht)]
  have h1 : (n + t - 1 : Int) = ((n.toNat + t.toNat - 1 : Nat) : Int) := by omega
  have h2 : t = ((t.toNat : Nat) : Int) := by omega
  rw [h1, h2, ← Int.ofNat_ediv]
  rfl

theorem fdiv_eq_nat (n k : Int) (hn : 0 ≤ n) (hk : 0 < k) :
    n.fdiv k = ((n.toNat / k.toNat : Nat) : Int) := by
  rw [Int.fdiv_eq_ediv _ (le_of_lt hk)]
  have h1 : n = ((n.toNat : Nat) : Int) := by omega
  have h2 : k = ((k.toNat : Nat) : Int) := by omega
  rw [h1, h2, ← Int.ofNat_ediv]
  rfl

theorem fmod_eq_nat (n k : Int) (hn : 0 ≤ n) (hk : 0 < k) :
    n.fmod k = ((n.toNat % k.toNat : Nat) : Int) := by
  rw [Int.fmod_eq_emod _ (le_of_lt hk), Int.ofNat_emod,
    Int.toNat_of_nonneg hn, Int.toNat_of_nonneg (le_of_lt hk)]

theorem sum_sizes_congr (f g : Nat → Int) (h : ∀ j, f j = g j) (c i : Nat) :
    sum_sizes f i c = sum_sizes g i c :=
  le_antisymm (sum_sizes_le_of_pointwise f g (fun j => le_of_eq (h j)) c i)
    (sum_sizes_le_of_pointwise g f (fun j => le_of_eq (h j).symm) c i)

theorem getD_eq_get {α : Type} (l : List α) (d : α) (j : Nat) (h : j < l.length) :
    l.getD j d = l[j] := by
  simp [List.getD_eq_getElem?_getD, List.getElem?_eq_getElem h]

/-! ### The first candidate k = ceil(n / max_size) always succeeds

For a non-empty list and max_size ≥ 3, the first candidate of the search
is accepted: its clamped sizes sum to at least n.  It produces exactly
ceil(n / max_size) pods, whose players exactly partition the input; every
pod size is at most max_size, and every pod except possibly the last has
size at least 3. -/

theorem first_candidate_spec (ps : List String) (m : Int)
    (hps : ps ≠ []) (hm : 3 ≤ m) :
    accepts_candidate ps m (min_pods_of ((ps.length : Nat) : Int) m) = true ∧
    (build_candidate ps m (min_pods_of ((ps.length : Nat) : Int) m)).1.length
      = (min_pods_of ((ps.length : Nat) : Int) m).toNat ∧
    1 ≤ (min_pods_of ((ps.length : Nat) : Int) m).toNat ∧
    joinPlayers (build_candidate ps m (min_pods_of ((ps.length : Nat) : Int) m)).1 = ps ∧
    (∀ p ∈ (build_candidate ps m (min_pods_of ((ps.length : Nat) : Int) m)).1,
      p.size ≤ m) ∧
    (∀ (j : Nat), j + 1 < (min_pods_of ((ps.length : Nat) : Int) m).toNat →
      3 ≤ ((build_candidate ps m (min_pods_of ((ps.length : Nat) : Int) m)).1.getD j
        (Pod.mk 0 [] 0)).size) := by
  have hlen1 : 1 ≤ ps.length := List.length_pos.mpr hps
  set nn := ps.length with hnn
  set mm := m.toNat with hmmdef
  have hmm3 : 3 ≤ mm := by omega
  have hmcast : ((mm : Nat) : Int) = m := Int.toNat_of_nonneg (by omega)
  set kN := (nn + mm - 1) / mm with hkNdef
  have hminp : min_pods_of ((nn : Nat) : Int) m = ((kN : Nat) : Int) := by
    rw [min_pods_of_eq_nat ((nn : Nat) : Int) m (by positivity) (by omega)]
    simp [hkNdef, hmmdef]
  have hceil : nn ≤ kN * mm := nat_ceil_mul_ge nn mm (by omega) (by omega)
  have hk1 : 1 ≤ kN := by
    rcases Nat.eq_zero_or_pos kN with h | h
    · rw [h] at hceil; simp at hceil; omega
    · exact h
  have hkn : kN ≤ nn := by
    refine nat_ceil_le nn mm nn (by omega) ?_
    have h1 : nn * 1 ≤ nn * mm := Nat.mul_le_mul_left nn (by omega)
    omega
  have hmindiv : (kN - 1) * mm < nn := by
    by_contra hcon
    push_neg at hcon
    have := nat_ceil_le nn mm (kN - 1) (by omega) hcon
    omega
  set bN := nn / kN with hbNdef
  set rN := nn % kN with hrNdef
  have hdm : kN * bN + rN = nn := Nat.div_add_mod nn kN
  have hrk : rN < kN := Nat.mod_lt _ (by omega)
  have hb1 : 1 ≤ bN := Nat.div_pos hkn (by omega)
  have hkble : kN * bN ≤ nn := by omega
  have hbmle : bN ≤ mm := by
    by_contra hcon
    push_neg at hcon
    have h1 : kN * (mm + 1) ≤ kN * bN := Nat.mul_le_mul_left kN (by omega)
    have h2 : kN * (mm + 1) = kN * mm + kN := by ring
    omega
  have hbm1 : rN ≠ 0 → bN + 1 ≤ mm := by
    intro hr0
    by_contra hcon
    push_neg at hcon
    have hbe : bN = mm := by omega
    rw [hbe] at hdm
    omega
  -- pass to the Int-level parameters of build_candidate
  have hfdiv : ((nn : Nat) : Int).fdiv ((kN : Nat) : Int) = ((bN : Nat) : Int) := by
    rw [fdiv_eq_nat _ _ (by positivity) (by exact_mod_cast hk1)]
    simp [hbNdef]
  have hfmod : ((nn : Nat) : Int).fmod ((kN : Nat) : Int) = ((rN : Nat) : Int) := by
    rw [fmod_eq_nat _ _ (by positivity) (by exact_mod_cast hk1)]
    simp [hrNdef]
  have hbc : build_candidate ps m (min_pods_of ((nn : Nat) : Int) m)
      = build_aux ps m ((bN : Nat) : Int) ((rN : Nat) : Int) 0 kN 0 := by
    rw [hminp]
    unfold build_candidate
    dsimp only
    rw [hfdiv, hfmod]
    simp
  have hbase : (1 : Int) ≤ ((bN : Nat) : Int) := by exact_mod_cast hb1
  obtain ⟨mlen, mfin, mjoin, mget⟩ :=
    build_aux_spec ps m ((bN : Nat) : Int) ((rN : Nat) : Int) hbase kN 0 0 le_rfl
  -- every raw size is at most m
  have hraw_le_m : ∀ j, rawSize ((bN : Nat) : Int) ((rN : Nat) : Int) j ≤ m := by
    intro j
    simp only [rawSize]
    by_cases hj : (j : Int) < ((rN : Nat) : Int)
    · simp only [if_pos hj]
      have hrne : rN ≠ 0 := by
        intro h0
        rw [h0] at hj
        simp at hj
        omega
      have := hbm1 hrne
      omega
    · simp only [if_neg hj]
      omega
  have hclamp_ge : ∀ j, rawSize ((bN : Nat) : Int) ((rN : Nat) : Int) j
      ≤ clampSize m ((bN : Nat) : Int) ((rN : Nat) : Int) j :=
    fun j => clampSize_ge_raw _ _ _ j (hraw_le_m j)
  have hsumraw : sum_sizes (rawSize ((bN : Nat) : Int) ((rN : Nat) : Int)) 0 kN
      = ((nn : Nat) : Int) := by
    rw [sum_rawSize_full _ _ kN (by positivity) (by exact_mod_cast le_of_lt hrk)]
    exact_mod_cast congrArg (fun x => ((x : Nat) : Int)) hdm
  have hsum_ge : ((nn : Nat) : Int)
      ≤ sum_sizes (clampSize m ((bN : Nat) : Int) ((rN : Nat) : Int)) 0 kN := by
    rw [← hsumraw]
    exact sum_sizes_le_of_pointwise _ _ hclamp_ge kN 0
  have hsumnn : 0 ≤ sum_sizes (clampSize m ((bN : Nat) : Int) ((rN : Nat) : Int)) 0 kN := by
    have : (0 : Int) ≤ ((nn : Nat) : Int) := by positivity
    omega
  have hfin : (build_candidate ps m (min_pods_of ((nn : Nat) : Int) m)).2
      = sum_sizes (clampSize m ((bN : Nat) : Int) ((rN : Nat) : Int)) 0 kN := by
    rw [hbc, mfin]
    ring
  have hacc : accepts_candidate ps m (min_pods_of ((nn : Nat) : Int) m) = true := by
    simp only [accepts_candidate, Bool.and_eq_true, decide_eq_true_eq]
    constructor
    · rw [hminp]
      exact_mod_cast by omega
    · rw [hfin]
      exact hsum_ge
  have hlenk : (build_candidate ps m (min_pods_of ((nn : Nat) : Int) m)).1.length
      = (min_pods_of ((nn : Nat) : Int) m).toNat := by
    rw [hbc, mlen, hminp]
    simp
  have hk1' : 1 ≤ (min_pods_of ((nn : Nat) : Int) m).toNat := by
    rw [hminp]
    simpa using hk1
  have hjoin : joinPlayers (build_candidate ps m (min_pods_of ((nn : Nat) : Int) m)).1
      = ps := by
    rw [hbc, mjoin]
    simp only [Int.toNat_zero, List.drop_zero]
    refine List.take_of_length_le ?_
    have : ((nn : Nat) : Int)
        ≤ sum_sizes (clampSize m ((bN : Nat) : Int) ((rN : Nat) : Int)) 0 kN := hsum_ge
    omega
  refine ⟨hacc, hlenk, hk1', hjoin, ?_, ?_⟩
  · -- upper bound on every pod size
    intro p hp
    rw [hbc] at hp
    rw [List.mem_iff_getElem] at hp
    obtain ⟨j, hjl, hje⟩ := hp
    have hjl2 : j < kN := by rw [mlen] at hjl; exact hjl
    have hgd := mget j hjl2
    rw [getD_eq_get _ _ j hjl, hje] at hgd
    rw [hgd]
    dsimp only
    simp only [List.length_take, List.length_drop]
    rw [← hnn]
    have hc3 := clampSize_ge_three m ((bN : Nat) : Int) ((rN : Nat) : Int) (0 + j)
    have hcm := clampSize_le_m m ((bN : Nat) : Int) ((rN : Nat) : Int) hm (0 + j)
    omega
  · -- lower bound for every pod but the last
    intro j hj1
    have hjk : j + 1 < kN := by
      rw [hminp] at hj1
      simpa using hj1
    have hgd := mget j (by omega)
    rw [hbc, hgd]
    dsimp only
    simp only [List.length_take, List.length_drop]
    rw [← hnn]
    have hc3 := clampSize_ge_three m ((bN : Nat) : Int) ((rN : Nat) : Int) (0 + j)
    have hsumj0 : 0 ≤ sum_sizes (clampSize m ((bN : Nat) : Int) ((rN : Nat) : Int)) 0 j :=
      sum_sizes_nonneg _
        (fun l => by have := clampSize_ge_three m ((bN : Nat) : Int) ((rN : Nat) : Int) l; omega)
        j 0
    have hkey : sum_sizes (clampSize m ((bN : Nat) : Int) ((rN : Nat) : Int)) 0 j + 3
        ≤ ((nn : Nat) : Int) := by
      rcases Nat.lt_or_ge bN 2 with hb | hb
      · -- base = 1 forces a single pod, contradicting j + 1 < kN
        exfalso
        have hbe : bN = 1 := by omega
        rw [hbe] at hdm
        have h31 : (kN - 1) * 3 ≤ (kN - 1) * mm := Nat.mul_le_mul_left _ hmm3
        have hk3 : kN < 3 := by omega
        have hk2 : kN = 2 := by omega
        rw [hk2] at hmindiv
        norm_num at hmindiv
        omega
      rcases Nat.lt_or_ge bN 3 with hb2 | hb2
      · -- base = 2: every clamped size is exactly 3
        have hbe : bN = 2 := by omega
        have hcl3 : ∀ l, clampSize m ((bN : Nat) : Int) ((rN : Nat) : Int) l = 3 := by
          intro l
          have h1 := hraw_le_m l
          have h2 : rawSize ((bN : Nat) : Int) ((rN : Nat) : Int) l ≤ 3 := by
            simp only [rawSize]
            by_cases hl : (l : Int) < ((rN : Nat) : Int) <;> simp [hl] <;> omega
          have h3 : 2 ≤ rawSize ((bN : Nat) : Int) ((rN : Nat) : Int) l := by
            simp only [rawSize]
            by_cases hl : (l : Int) < ((rN : Nat) : Int) <;> simp [hl] <;> omega
          simp only [clampSize]
          rw [min_eq_left h1]
          exact max_eq_left h2
        have haj := sum_sizes_const _ 3 hcl3 j 0
        have hdm2 : kN * 2 + rN = nn := by rw [hbe] at hdm; exact hdm
        have h31 : (kN - 1) * 3 ≤ (kN - 1) * mm := Nat.mul_le_mul_left _ hmm3
        have hkr : kN ≤ rN + 2 := by omega
        rw [haj]
        omega
      · -- base ≥ 3: clamped sizes are the raw sizes and sum to n exactly
        have hclraw : ∀ l, clampSize m ((bN : Nat) : Int) ((rN : Nat) : Int) l
            = rawSize ((bN : Nat) : Int) ((rN : Nat) : Int) l := by
          intro l
          have h1 := hraw_le_m l
          have h2 : 3 ≤ rawSize ((bN : Nat) : Int) ((rN : Nat) : Int) l := by
            simp only [rawSize]
            by_cases hl : (l : Int) < ((rN : Nat) : Int) <;> simp [hl] <;> omega
          simp only [clampSize]
          rw [min_eq_left h1]
          exact max_eq_right h2
        have hsumeq := sum_sizes_congr _ _ hclraw j 0
        have hjk2 : j + (kN - j) = kN := by omega
        have hsplit := sum_sizes_split (rawSize ((bN : Nat) : Int) ((rN : Nat) : Int)) j (kN - j) 0
        rw [hjk2] at hsplit
        have hge := sum_sizes_ge_const (rawSize ((bN : Nat) : Int) ((rN : Nat) : Int))
          ((bN : Nat) : Int)
          (fun l => by
            simp only [rawSize]
            by_cases hl : (l : Int) < ((rN : Nat) : Int) <;> simp [hl] <;> omega)
          (kN - j) (0 + j)
        have h2kj : (2 : Int) ≤ ((kN - j : Nat) : Int) := by
          exact_mod_cast (show 2 ≤ kN - j by omega)
        have hb3i : (3 : Int) ≤ ((bN : Nat) : Int) := by exact_mod_cast hb2
        have hprod : (6 : Int) ≤ ((kN - j : Nat) : Int) * ((bN : Nat) : Int) := by
          have := mul_le_mul h2kj hb3i (by norm_num) (by positivity)
          linarith
        have hfull := hsumraw
        rw [hsplit] at hfull
        rw [hsumeq]
        omega
    omega

/-! ### The search loop: first accepted candidate wins -/

theorem candidate_range_cons (lo hi : Int) (h : lo ≤ hi) :
    candidate_range lo hi = lo :: candidate_range (lo + 1) hi := by
  unfold candidate_range
  have h1 : (hi + 1 - lo).toNat = (hi + 1 - (lo + 1)).toNat + 1 := by omega
  rw [h1, List.range_succ_eq_map, List.map_cons, List.map_map]
  have h2 : lo + Int.ofNat 0 = lo := by simp
  rw [h2]
  have h3 : ((fun j => lo + Int.ofNat j) ∘ Nat.succ) = (fun j => lo + 1 + Int.ofNat j) := by
    funext j
    simp only [Function.comp_apply, Int.ofNat_eq_coe]
    omega
  rw [h3]

theorem find_first_of_head (lo hi : Int) (p : Int → Bool) (h : lo ≤ hi)
    (hp : p lo = true) : (candidate_range lo hi).find? p = some lo := by
  rw [candidate_range_cons lo hi h]
  exact List.find?_cons_of_pos _ hp

theorem min_le_max_pods (nn : Nat) (t m : Int) (hn : 1 ≤ nn) (ht3 : 3 ≤ t)
    (htm : t ≤ m) :
    min_pods_of ((nn : Nat) : Int) m ≤ max_pods_of ((nn : Nat) : Int) t := by
  have hm : 3 ≤ m := le_trans ht3 htm
  rw [min_pods_of_eq_nat _ _ (by positivity) (by omega),
    max_pods_of_eq_nat _ _ (by positivity) (by omega)]
  have hcast : ((nn : Nat) : Int).toNat = nn := by omega
  rw [hcast]
  have httm : t.toNat ≤ m.toNat := by omega
  have h1 : nn ≤ ((nn + t.toNat - 1) / t.toNat) * t.toNat :=
    nat_ceil_mul_ge nn t.toNat (by omega) (by omega)
  have h2 : ((nn + t.toNat - 1) / t.toNat) * t.toNat
      ≤ ((nn + t.toNat - 1) / t.toNat) * m.toNat := by
    calc ((nn + t.toNat - 1) / t.toNat) * t.toNat
        = t.toNat * ((nn + t.toNat - 1) / t.toNat) := by ring
      _ ≤ m.toNat * ((nn + t.toNat - 1) / t.toNat) := Nat.mul_le_mul_right _ httm
      _ = ((nn + t.toNat - 1) / t.toNat) * m.toNat := by ring
  have h3 := nat_ceil_le nn m.toNat ((nn + t.toNat - 1) / t.toNat) (by omega) (by omega)
  exact_mod_cast h3

theorem calculate_eq_first (ps : List String) (t m : Int) (hps : ps ≠ [])
    (ht3 : 3 ≤ t) (htm : t ≤ m) :
    calculate_pod_distribution ps t m
      = some (build_candidate ps m (min_pods_of ((ps.length : Nat) : Int) m)).1 := by
  have hm : 3 ≤ m := le_trans ht3 htm
  have hlen1 : 1 ≤ ps.length := List.length_pos.mpr hps
  obtain ⟨hacc, hlen, hk1, hjoin, hbd1, hbd2⟩ := first_candidate_spec ps m hps hm
  have hne : (build_candidate ps m (min_pods_of ((ps.length : Nat) : Int) m)).1 ≠ [] := by
    intro h
    rw [h] at hlen
    simp at hlen
    omega
  unfold calculate_pod_distribution
  rw [if_neg (by omega : ¬ (m = 0)), if_neg (by omega : ¬ (t = 0))]
  dsimp only
  rw [find_first_of_head _ _ _ (min_le_max_pods ps.length t m hlen1 ht3 htm) hacc]
  dsimp only
  rw [if_neg (by simpa [List.isEmpty_iff] using hne)]

theorem create_pods_eq_calculate (ps : List String) (t m : Int) (hps : ps ≠ []) :
    create_pods ps t m = calculate_pod_distribution ps (max 3 (min t m)) m := by
  unfold create_pods
  rw [if_neg hps]

theorem clamp_ge_three (t m : Int) : 3 ≤ max 3 (min t m) := le_max_left _ _

theorem clamp_le_m (t m : Int) (hm : 3 ≤ m) : max 3 (min t m) ≤ m :=
  max_le hm (min_le_right t m)

theorem clamp_eq_self (t m : Int) (ht : 3 ≤ t) (htm : t ≤ m) : max 3 (min t m) = t := by
  rw [min_eq_left htm]
  exact max_eq_right ht

theorem create_pods_eq_first (ps : List String) (t m : Int) (hps : ps ≠ [])
    (hm : 3 ≤ m) :
    create_pods ps t m
      = some (build_candidate ps m (min_pods_of ((ps.length : Nat) : Int) m)).1 := by
  rw [create_pods_eq_calculate ps t m hps]
  exact calculate_eq_first ps _ m hps (clamp_ge_three t m) (clamp_le_m t m hm)

/-! ### The fallback sequential distributor -/

theorem simple_aux_nil (t m : Int) (fuel : Nat) (accRev : List Pod) (podId : Int) :
    simple_aux t m fuel accRev podId [] = some accRev.reverse := by
  cases fuel <;> rfl

theorem simple_aux_step_empty (t m : Int) (fuel : Nat) (podId : Int)
    (x : String) (xs : List String) :
    simple_aux t m (fuel + 1) [] podId (x :: xs)
      = simple_aux t m fuel
          (⟨podId, (x :: xs).take (min t ((x :: xs).length : Int)).toNat,
            (((x :: xs).take (min t ((x :: xs).length : Int)).toNat).length : Int)⟩ :: [])
          (podId + 1) ((x :: xs).drop (min t ((x :: xs).length : Int)).toNat) := by
  simp only [simple_aux]

theorem simple_aux_step_normal (t m : Int) (fuel : Nat) (lastPod : Pod)
    (prevRev : List Pod) (podId : Int) (x : String) (xs : List String)
    (h3 : ¬ (((x :: xs).length : Int) < 3)) :
    simple_aux t m (fuel + 1) (lastPod :: prevRev) podId (x :: xs)
      = simple_aux t m fuel
          (⟨podId, (x :: xs).take (min t ((x :: xs).length : Int)).toNat,
            (((x :: xs).take (min t ((x :: xs).length : Int)).toNat).length : Int)⟩
            :: lastPod :: prevRev)
          (podId + 1) ((x :: xs).drop (min t ((x :: xs).length : Int)).toNat) := by
  simp only [simple_aux]
  rw [if_neg (fun hc => h3 hc.1), if_neg h3]

theorem simple_aux_step_merge (t m : Int) (fuel : Nat) (lastPod : Pod)
    (prevRev : List Pod) (podId : Int) (x : String) (xs : List String)
    (hsmall : ((x :: xs).length : Int) < 3)
    (hfit : (lastPod.players.length : Int) + ((x :: xs).length : Int) ≤ m) :
    simple_aux t m (fuel + 1) (lastPod :: prevRev) podId (x :: xs)
      = some ((⟨lastPod.id, lastPod.players ++ (x :: xs),
          ((lastPod.players ++ (x :: xs)).length : Int)⟩ :: prevRev).reverse) := by
  simp only [simple_aux]
  rw [if_pos ⟨hsmall, hfit⟩]

theorem simple_aux_step_small (t m : Int) (fuel : Nat) (lastPod : Pod)
    (prevRev : List Pod) (podId : Int) (x : String) (xs : List String)
    (hsmall : ((x :: xs).length : Int) < 3)
    (hnofit : ¬ ((lastPod.players.length : Int) + ((x :: xs).length : Int) ≤ m)) :
    simple_aux t m (fuel + 1) (lastPod :: prevRev) podId (x :: xs)
      = simple_aux t m fuel
          (⟨podId, x :: xs, ((x :: xs).length : Int)⟩ :: lastPod :: prevRev)
          (podId + 1) [] := by
  simp only [simple_aux]
  rw [if_neg (fun hc => hnofit hc.2), if_pos hsmall,
    if_pos (by exact_mod_cast xs.length.succ_pos : (0 : Int) < ((x :: xs).length : Int))]
  have h1 : (((x :: xs).length : Int)).toNat = (x :: xs).length := by omega
  rw [h1, List.take_length, List.drop_length]

theorem simple_aux_total (t m : Int) (ht : 1 ≤ t) :
    ∀ (fuel : Nat) (rest : List String), rest.length < fuel →
      ∀ (accRev : List Pod) (podId : Int),
        ∃ r, simple_aux t m fuel accRev podId rest = some r := by
  intro fuel
  induction fuel with
  | zero => intro rest h; omega
  | succ fuel ih =>
    intro rest hlen accRev podId
    match rest with
    | [] => exact ⟨accRev.reverse, simple_aux_nil t m _ accRev podId⟩
    | x :: xs =>
      have hlx : 1 ≤ (x :: xs).length := by simp
      have hp1 : 1 ≤ min t ((x :: xs).length : Int) := by
        have : (1 : Int) ≤ ((x :: xs).length : Int) := by exact_mod_cast hlx
        omega
      have hdrop : ((x :: xs).drop (min t ((x :: xs).length : Int)).toNat).length < fuel := by
        rw [List.length_drop]
        omega
      cases accRev with
      | nil =>
        rw [simple_aux_step_empty]
        exact ih _ hdrop _ _
      | cons lastPod prevRev =>
        by_cases hsm : ((x :: xs).length : Int) < 3
        · by_cases hfit : (lastPod.players.length : Int) + ((x :: xs).length : Int) ≤ m
          · exact ⟨_, simple_aux_step_merge t m fuel lastPod prevRev podId x xs hsm hfit⟩
          · rw [simple_aux_step_small t m fuel lastPod prevRev podId x xs hsm hfit,
              simple_aux_nil]
            exact ⟨_, rfl⟩
        · rw [simple_aux_step_normal t m fuel lastPod prevRev podId x xs hsm]
          exact ih _ hdrop _ _

theorem joinPlayers_append (a b : List Pod) :
    joinPlayers (a ++ b) = joinPlayers a ++ joinPlayers b := by
  simp [joinPlayers]

theorem joinPlayers_reverse_cons (p : Pod) (l : List Pod) :
    joinPlayers ((p :: l).reverse) = joinPlayers l.reverse ++ p.players := by
  rw [List.reverse_cons, joinPlayers_append]
  simp [joinPlayers]

theorem simple_aux_join (t m : Int) :
    ∀ (fuel : Nat) (accRev : List Pod) (podId : Int) (rest : List String)
      (res : List Pod),
      simple_aux t m fuel accRev podId rest = some res →
      joinPlayers res = joinPlayers accRev.reverse ++ rest := by
  intro fuel
  induction fuel with
  | zero =>
    intro accRev podId rest res h
    match rest with
    | [] =>
      rw [simple_aux_nil] at h
      injection h with h
      rw [← h]
      simp
    | x :: xs => simp [simple_aux] at h
  | succ fuel ih =>
    intro accRev podId rest res h
    match rest with
    | [] =>
      rw [simple_aux_nil] at h
      injection h with h
      rw [← h]
      simp
    | x :: xs =>
      cases accRev with
      | nil =>
        rw [simple_aux_step_empty] at h
        have hres := ih _ _ _ _ h
        rw [hres, joinPlayers_reverse_cons]
        simp only [joinPlayers, List.reverse_nil, List.flatMap_nil, List.nil_append,
          List.append_assoc]
        rw [List.take_append_drop]
      | cons lastPod prevRev =>
        by_cases hsm : ((x :: xs).length : Int) < 3
        · by_cases hfit : (lastPod.players.length : Int) + ((x :: xs).length : Int) ≤ m
          · rw [simple_aux_step_merge t m fuel lastPod prevRev podId x xs hsm hfit] at h
            injection h with h
            rw [← h, joinPlayers_reverse_cons, joinPlayers_reverse_cons]
            simp [List.append_assoc]
          · rw [simple_aux_step_small t m fuel lastPod prevRev podId x xs hsm hfit,
              simple_aux_nil] at h
            injection h with h
            rw [← h, joinPlayers_reverse_cons, joinPlayers_reverse_cons]
        · rw [simple_aux_step_normal t m fuel lastPod prevRev podId x xs hsm] at h
          have hres := ih _ _ _ _ h
          rw [hres, joinPlayers_reverse_cons, joinPlayers_reverse_cons]
          simp only [List.append_assoc]
          rw [List.take_append_drop]

theorem simple_distribution_total (ps : List String) (t m : Int) (ht : 1 ≤ t) :
    ∃ r, simple_distribution ps t m = some r :=
  simple_aux_total t m ht (ps.length + 1) ps (by omega) [] 1

theorem simple_distribution_join (ps : List String) (t m : Int) (res : List Pod)
    (h : simple_distribution ps t m = some res) : joinPlayers res = ps := by
  have := simple_aux_join t m (ps.length + 1) [] 1 ps res h
  simpa [joinPlayers] using this

theorem map_size_reverse_cons (p : Pod) (l : List Pod) :
    ((p :: l).reverse).map (fun q => q.size) = (l.reverse).map (fun q => q.size) ++ [p.size] := by
  simp

/-- The run of the fallback distributor on a list of c full chunks of
target_size followed by an undersized remainder r with 0 < r < 3: the c
full pods are emitted, then the remainder is merged into the last of them
exactly when that does not overflow max_size, and otherwise becomes an
undersized final pod. -/
theorem simple_aux_chunks (t m : Int) (ht : 3 ≤ t) (r : Nat) (hr1 : 1 ≤ r)
    (hr2 : r < 3) :
    ∀ (c : Nat), 1 ≤ c →
      ∀ (rest : List String) (accRev : List Pod) (podId : Int) (fuel : Nat),
        rest.length = c * t.toNat + r → rest.length < fuel →
        ∃ res, simple_aux t m fuel accRev podId rest = some res ∧
          res.map (fun p => p.size)
            = accRev.reverse.map (fun p => p.size) ++
              (if t + (r : Int) ≤ m then List.replicate (c - 1) t ++ [t + (r : Int)]
               else List.replicate c t ++ [(r : Int)]) := by
  intro c
  induction c with
  | zero => omega
  | succ c ih =>
    intro _ rest accRev podId fuel hlen hfuel
    have htN : 3 ≤ t.toNat := by omega
    have htc : ((t.toNat : Nat) : Int) = t := by omega
    have hchunk : t.toNat ≤ (c + 1) * t.toNat := Nat.le_mul_of_pos_left t.toNat c.succ_pos
    have hlen4 : 4 ≤ rest.length := by omega
    match rest with
    | [] => simp at hlen4
    | x :: xs =>
      obtain ⟨f, rfl⟩ : ∃ f, fuel = f + 1 := ⟨fuel - 1, by omega⟩
      have hnotsmall : ¬ (((x :: xs).length : Int) < 3) := by
        have : (4 : Int) ≤ ((x :: xs).length : Int) := by exact_mod_cast hlen4
        omega
      have htle : t ≤ ((x :: xs).length : Int) := by
        have h1 : t.toNat ≤ (x :: xs).length := by omega
        omega
      have hminp : (min t ((x :: xs).length : Int)).toNat = t.toNat := by
        rw [min_eq_left htle]
      have htakelen : ((x :: xs).take (min t ((x :: xs).length : Int)).toNat).length
          = t.toNat := by
        rw [List.length_take, hminp]
        omega
      have hsize : (((x :: xs).take (min t ((x :: xs).length : Int)).toNat).length : Int)
          = t := by
        rw [htakelen]
        omega
      have hdroplen : ((x :: xs).drop (min t ((x :: xs).length : Int)).toNat).length
          = c * t.toNat + r := by
        rw [List.length_drop, hminp]
        have hexp : (c + 1) * t.toNat = c * t.toNat + t.toNat := by ring
        omega
      have hdropfuel : ((x :: xs).drop (min t ((x :: xs).length : Int)).toNat).length < f := by
        rw [hdroplen]
        have hexp : (c + 1) * t.toNat = c * t.toNat + t.toNat := by ring
        omega
      -- the first step is a normal full chunk in either accRev shape
      have hstep : simple_aux t m (f + 1) accRev podId (x :: xs)
          = simple_aux t m f
              (⟨podId, (x :: xs).take (min t ((x :: xs).length : Int)).toNat,
                (((x :: xs).take (min t ((x :: xs).length : Int)).toNat).length : Int)⟩
                :: accRev)
              (podId + 1) ((x :: xs).drop (min t ((x :: xs).length : Int)).toNat) := by
        cases accRev with
        | nil => exact simple_aux_step_empty t m f podId x xs
        | cons lastPod prevRev => exact simple_aux_step_normal t m f lastPod prevRev podId x xs hnotsmall
      rw [hstep]
      rcases Nat.eq_zero_or_pos c with hc0 | hc1
      · -- this was the last full chunk: the remainder branch decides
        subst hc0
        have hrlen : ((x :: xs).drop (min t ((x :: xs).length : Int)).toNat).length = r := by
          rw [hdroplen]
          omega
        obtain ⟨f2, rfl⟩ : ∃ f2, f = f2 + 1 := ⟨f - 1, by omega⟩
        obtain ⟨y, ys, hyys⟩ :
            ∃ y ys, (x :: xs).drop (min t ((x :: xs).length : Int)).toNat = y :: ys := by
          match hh : (x :: xs).drop (min t ((x :: xs).length : Int)).toNat with
          | [] =>
            rw [hh] at hrlen
            simp at hrlen
            omega
          | y :: ys => exact ⟨y, ys, rfl⟩
        rw [hyys]
        have hry : (y :: ys).length = r := by rw [← hyys]; exact hrlen
        have hsmall2 : (((y :: ys).length : Int)) < 3 := by omega
        have hplen : ((((x :: xs).take (min t ((x :: xs).length : Int)).toNat)).length : Int)
            + ((y :: ys).length : Int) = t + (r : Int) := by
          rw [htakelen]
          omega
        by_cases hfit : t + (r : Int) ≤ m
        · rw [simple_aux_step_merge t m f2 _ accRev (podId + 1) y ys hsmall2
            (by rw [hplen]; exact hfit)]
          refine ⟨_, rfl, ?_⟩
          rw [map_size_reverse_cons]
          simp only [if_pos hfit]
          have hms : (((((x :: xs).take (min t ((x :: xs).length : Int)).toNat)) ++ (y :: ys)).length : Int)
              = t + (r : Int) := by
            rw [List.length_append, htakelen]
            omega
          simp only [Nat.add_sub_cancel, List.replicate_zero, List.nil_append]
          rw [hms]
        · rw [simple_aux_step_small t m f2 _ accRev (podId + 1) y ys hsmall2
            (by rw [hplen]; exact hfit), simple_aux_nil]
          refine ⟨_, rfl, ?_⟩
          rw [map_size_reverse_cons, map_size_reverse_cons]
          simp only [if_neg hfit]
          have hys : (((y :: ys).length : Nat) : Int) = (r : Int) := by omega
          simp only [List.replicate_succ, List.replicate_zero]
          rw [hsize, hys]
          simp
      · -- more full chunks remain: induction
        obtain ⟨res, hres, hsizes⟩ := ih hc1
          ((x :: xs).drop (min t ((x :: xs).length : Int)).toNat)
          (⟨podId, (x :: xs).take (min t ((x :: xs).length : Int)).toNat,
            (((x :: xs).take (min t ((x :: xs).length : Int)).toNat).length : Int)⟩ :: accRev)
          (podId + 1) f hdroplen hdropfuel
        refine ⟨res, hres, ?_⟩
        rw [hsizes, map_size_reverse_cons, hsize]
        obtain ⟨e, rfl⟩ : ∃ e, c = e + 1 := ⟨c - 1, by omega⟩
        by_cases hfit : t + (r : Int) ≤ m
        · simp only [if_pos hfit, Nat.add_sub_cancel, List.replicate_succ,
            List.append_assoc, List.cons_append, List.nil_append]
        · simp only [if_neg hfit, List.replicate_succ,
            List.append_assoc, List.cons_append, List.nil_append]

/-! ### Statistics helpers -/

theorem int_min?_spec (l : List Int) (a : Int) (h : l.min? = some a) :
    a ∈ l ∧ ∀ b ∈ l, a ≤ b := by
  have anti : Std.Antisymm ((· : Int) ≤ ·) := ⟨fun h1 h2 => le_antisymm h1 h2⟩
  rw [List.min?_eq_some_iff (fun a => le_refl a) (fun a b => min_choice a b)
    (fun a b c => le_min_iff)] at h
  exact h

theorem int_max?_spec (l : List Int) (a : Int) (h : l.max? = some a) :
    a ∈ l ∧ ∀ b ∈ l, b ≤ a := by
  have anti : Std.Antisymm ((· : Int) ≤ ·) := ⟨fun h1 h2 => le_antisymm h1 h2⟩
  rw [List.max?_eq_some_iff (fun a => le_refl a) (fun a b => max_choice a b)
    (fun a b c => max_le_iff)] at h
  exact h

/-! ### get_history shallow-copy lemmas -/

theorem get_history_fresh (mem : HistoryMem) (h : Nat)
    (hh : h < mem.listCells.length) : (get_history mem h).2 ≠ h := by
  simp only [get_history]
  omega

theorem get_history_read_after_write (mem : HistoryMem) (h : Nat)
    (hh : h < mem.listCells.length) (v : List Nat) :
    readList (writeList (get_history mem h).1 (get_history mem h).2 v) h
      = readList mem h := by
  simp only [get_history, writeList, readList, List.getD_eq_getElem?_getD]
  rw [List.getElem?_set_ne (by omega : mem.listCells.length ≠ h),
    List.getElem?_append_left hh]

theorem get_history_render_after_write (mem : HistoryMem) (h : Nat)
    (hh : h < mem.listCells.length) (v : List Nat) :
    renderHistory (writeList (get_history mem h).1 (get_history mem h).2 v) h
      = renderHistory mem h := by
  simp only [renderHistory]
  rw [get_history_read_after_write mem h hh v]
  rfl

/-! ### save_to_history trimming lemmas -/

theorem save_step_takeLast {α : Type} (maxItems : Int) (hmi : 1 ≤ maxItems)
    (history : List α) (entry : α) (hlen : history.length ≤ maxItems.toNat) :
    save_to_history_step maxItems history entry
        = (history ++ [entry]).drop ((history ++ [entry]).length - maxItems.toNat) ∧
      (save_to_history_step maxItems history entry).length ≤ maxItems.toNat := by
  have hlapp : (history ++ [entry]).length = history.length + 1 := by simp
  unfold save_to_history_step
  by_cases hcond : maxItems < ((history ++ [entry]).length : Int)
  · rw [if_pos hcond]
    unfold pyTailSlice
    rw [if_pos (by omega : -maxItems < 0)]
    have hidx : (((history ++ [entry]).length : Int) + -maxItems).toNat
        = (history ++ [entry]).length - maxItems.toNat := by omega
    rw [hidx]
    refine ⟨rfl, ?_⟩
    rw [List.length_drop]
    omega
  · rw [if_neg hcond]
    have h0 : (history ++ [entry]).length - maxItems.toNat = 0 := by omega
    rw [h0, List.drop_zero]
    exact ⟨rfl, by omega⟩

theorem save_fold {α : Type} (maxItems : Int) (hmi : 1 ≤ maxItems) :
    ∀ (es acc : List α), acc.length ≤ maxItems.toNat →
      List.foldl (save_to_history_step maxItems) acc es
        = (acc ++ es).drop ((acc ++ es).length - maxItems.toNat) := by
  intro es
  induction es with
  | nil =>
    intro acc hacc
    simp only [List.foldl_nil, List.append_nil]
    rw [show acc.length - maxItems.toNat = 0 by omega, List.drop_zero]
  | cons e es ih =>
    intro acc hacc
    simp only [List.foldl_cons]
    obtain ⟨hstep, hlen⟩ := save_step_takeLast maxItems hmi acc e hacc
    rw [hstep, ih _ (by rw [← hstep]; exact hlen)]
    rw [← List.drop_append_of_le_length
      (by omega : (acc ++ [e]).length - maxItems.toNat ≤ (acc ++ [e]).length)]
    rw [List.drop_drop]
    have hassoc : (acc ++ [e]) ++ es = acc ++ e :: es := by simp
    rw [hassoc]
    congr 1
    simp only [List.length_drop, List.length_append, List.length_cons, List.length_nil]
    omega

/-! ## Claim theorems -/

/-- C1: Conservation — for every participant list and every (target_size,
max_size) with 3 ≤ target_size ≤ max_size, the multiset union of the
players of all pods returned by create_pods equals the input multiset
(quantified over an arbitrary shuffle of the input); and likewise for the
sequential fallback path with its remainder-merge branch (for any
target_size ≥ 1, covering every call the fallback can receive). -/
theorem claim_C1 :
    (∀ (input shuffled : List String) (t m : Int),
      shuffled.Perm input → 3 ≤ t → t ≤ m →
      ∃ pods, create_pods shuffled t m = some pods ∧
        ((joinPlayers pods : List String) : Multiset String)
          = ((input : List String) : Multiset String)) ∧
    (∀ (ps : List String) (t m : Int), 1 ≤ t →
      ∃ pods, simple_distribution ps t m = some pods ∧
        ((joinPlayers pods : List String) : Multiset String)
          = ((ps : List String) : Multiset String)) := by
  constructor
  · intro input shuffled t m hperm ht htm
    by_cases hs : shuffled = []
    · subst hs
      have hinp : input = [] := List.Perm.eq_nil hperm.symm
      refine ⟨[], by simp [create_pods], ?_⟩
      simp [joinPlayers, hinp]
    · have hm : 3 ≤ m := le_trans ht htm
      obtain ⟨hacc, hlen, hk1, hjoin, hub, hlb⟩ := first_candidate_spec shuffled m hs hm
      refine ⟨_, create_pods_eq_first shuffled t m hs hm, ?_⟩
      rw [hjoin]
      exact Multiset.coe_eq_coe.mpr hperm
  · intro ps t m ht
    obtain ⟨r, hr⟩ := simple_distribution_total ps t m ht
    exact ⟨r, hr, by rw [simple_distribution_join ps t m r hr]⟩

theorem claim_C1_witness :
    ∃ pods, create_pods ["a", "b", "c", "d", "e"] 4 8 = some pods ∧
      ((joinPlayers pods : List String) : Multiset String)
        = ((["a", "b", "c", "d", "e"] : List String) : Multiset String) :=
  claim_C1.1 ["a", "b", "c", "d", "e"] ["a", "b", "c", "d", "e"] 4 8
    (List.Perm.refl _) (by decide) (by decide)

/-- C2 counterexample: with 4 participants, target_size = 3, max_size = 3
the balanced search itself accepts candidate k = 2 (no fallback), yet the
returned pods have sizes 3 and 1 — the second pod violates 3 ≤ size. -/
theorem claim_C2_counterexample :
    (candidate_range (min_pods_of 4 3) (max_pods_of 4 3)).find?
        (accepts_candidate ["a", "b", "c", "d"] 3) = some 2 ∧
    create_pods ["a", "b", "c", "d"] 3 3
      = some [Pod.mk 1 ["a", "b", "c"] 3, Pod.mk 2 ["d"] 1] ∧
    ¬ (∀ p ∈ [Pod.mk 1 ["a", "b", "c"] 3, Pod.mk 2 ["d"] 1],
        3 ≤ p.size ∧ p.size ≤ 3) := by
  refine ⟨by decide, by decide, by decide⟩

/-- C2 amended: whenever the balanced search succeeds (which, for
3 ≤ target_size ≤ max_size, it always does, at the first candidate),
every returned pod has size ≤ max_size, and every pod except possibly the
last one has size ≥ 3. -/
theorem claim_C2_amended (ps : List String) (t m : Int) (hps : ps ≠ [])
    (ht : 3 ≤ t) (htm : t ≤ m) :
    ∃ pods, create_pods ps t m = some pods ∧
      (∀ p ∈ pods, p.size ≤ m) ∧
      (∀ (j : Nat), j + 1 < pods.length → 3 ≤ (pods.getD j (Pod.mk 0 [] 0)).size) := by
  have hm : 3 ≤ m := le_trans ht htm
  obtain ⟨hacc, hlen, hk1, hjoin, hub, hlb⟩ := first_candidate_spec ps m hps hm
  refine ⟨_, create_pods_eq_first ps t m hps hm, hub, ?_⟩
  intro j hj
  exact hlb j (by rw [← hlen]; exact hj)

theorem claim_C2_amended_witness :
    ∃ pods, create_pods ["a", "b", "c", "d"] 3 3 = some pods ∧
      (∀ p ∈ pods, p.size ≤ 3) ∧
      (∀ (j : Nat), j + 1 < pods.length → 3 ≤ (pods.getD j (Pod.mk 0 [] 0)).size) :=
  claim_C2_amended ["a", "b", "c", "d"] 3 3 (by decide) (by decide) (by decide)

/-- C3: in the sequential fallback distribution over q ≥ 1 full chunks of
target_size and a final remainder r with 0 < r < 3 (so the final chunk is
below the minimum pod size and at least one pod already exists), the
remainder is merged into the previous pod exactly when that pod's size
(target_size) plus r does not exceed max_size, and otherwise an
undersized pod of size r is emitted; in both branches every participant
is placed and the computation returns normally. -/
theorem claim_C3 (ps : List String) (t m : Int) (q rN : Nat)
    (ht : 3 ≤ t) (hq : 1 ≤ q) (hr1 : 1 ≤ rN) (hr2 : rN < 3)
    (hlen : ps.length = q * t.toNat + rN) :
    ∃ pods, simple_distribution ps t m = some pods ∧
      joinPlayers pods = ps ∧
      pods.map (fun p => p.size)
        = (if t + (rN : Int) ≤ m then List.replicate (q - 1) t ++ [t + (rN : Int)]
           else List.replicate q t ++ [(rN : Int)]) := by
  obtain ⟨res, hres, hsizes⟩ := simple_aux_chunks t m ht rN hr1 hr2 q hq ps [] 1
    (ps.length + 1) hlen (by omega)
  refine ⟨res, hres, simple_distribution_join ps t m res hres, ?_⟩
  simpa using hsizes

theorem claim_C3_witness :
    (∃ pods, simple_distribution ["a", "b", "c", "d", "e"] 4 4 = some pods ∧
      joinPlayers pods = ["a", "b", "c", "d", "e"] ∧
      pods.map (fun p => p.size)
        = (if (4 : Int) + ((1 : Nat) : Int) ≤ 4
           then List.replicate (1 - 1) (4 : Int) ++ [(4 : Int) + ((1 : Nat) : Int)]
           else List.replicate 1 (4 : Int) ++ [((1 : Nat) : Int)])) ∧
    (∃ pods, simple_distribution ["a", "b", "c", "d", "e"] 4 8 = some pods ∧
      joinPlayers pods = ["a", "b", "c", "d", "e"] ∧
      pods.map (fun p => p.size)
        = (if (4 : Int) + ((1 : Nat) : Int) ≤ 8
           then List.replicate (1 - 1) (4 : Int) ++ [(4 : Int) + ((1 : Nat) : Int)]
           else List.replicate 1 (4 : Int) ++ [((1 : Nat) : Int)])) :=
  ⟨claim_C3 ["a", "b", "c", "d", "e"] 4 4 1 1 (by decide) (by decide) (by decide)
      (by decide) (by decide),
    claim_C3 ["a", "b", "c", "d", "e"] 4 8 1 1 (by decide) (by decide) (by decide)
      (by decide) (by decide)⟩

/-- C8: for every target_size and max_size (no validity restriction
needed), create_pods on the empty participant list returns the empty pod
list immediately, with no error. -/
theorem claim_C8 (t m : Int) : create_pods [] t m = some [] := by
  simp [create_pods]

/-- C4: for a non-empty input and 3 ≤ target_size ≤ max_size, the
candidate pod counts are scanned in ascending order from min_pods to
max_pods, the search stops at the first accepted candidate (here the
first, so no smaller candidate is feasible), the accepted candidate
accounts for every participant exactly (its pods' players concatenate to
the whole shuffled list), and create_pods returns exactly its pods. -/
theorem claim_C4 (ps : List String) (t m : Int) (hps : ps ≠ [])
    (ht : 3 ≤ t) (htm : t ≤ m) :
    ∃ k, (candidate_range (min_pods_of ((ps.length : Nat) : Int) m)
          (max_pods_of ((ps.length : Nat) : Int) t)).find?
            (accepts_candidate ps m) = some k ∧
      min_pods_of ((ps.length : Nat) : Int) m ≤ k ∧
      k ≤ max_pods_of ((ps.length : Nat) : Int) t ∧
      accepts_candidate ps m k = true ∧
      (∀ j, min_pods_of ((ps.length : Nat) : Int) m ≤ j → j < k →
        accepts_candidate ps m j = false) ∧
      create_pods ps t m = some (build_candidate ps m k).1 ∧
      joinPlayers (build_candidate ps m k).1 = ps := by
  have hm : 3 ≤ m := le_trans ht htm
  have hlen1 : 1 ≤ ps.length := List.length_pos.mpr hps
  obtain ⟨hacc, hlen, hk1, hjoin, hub, hlb⟩ := first_candidate_spec ps m hps hm
  refine ⟨min_pods_of ((ps.length : Nat) : Int) m,
    find_first_of_head _ _ _ (min_le_max_pods ps.length t m hlen1 ht htm) hacc,
    le_refl _, min_le_max_pods ps.length t m hlen1 ht htm, hacc, ?_,
    create_pods_eq_first ps t m hps hm, hjoin⟩
  intro j h1 h2
  omega

theorem claim_C4_witness :
    ∃ k, (candidate_range (min_pods_of 7 8) (max_pods_of 7 4)).find?
          (accepts_candidate ["a", "b", "c", "d", "e", "f", "g"] 8) = some k ∧
      min_pods_of 7 8 ≤ k ∧
      k ≤ max_pods_of 7 4 ∧
      accepts_candidate ["a", "b", "c", "d", "e", "f", "g"] 8 k = true ∧
      (∀ j, min_pods_of 7 8 ≤ j → j < k →
        accepts_candidate ["a", "b", "c", "d", "e", "f", "g"] 8 j = false) ∧
      create_pods ["a", "b", "c", "d", "e", "f", "g"] 4 8
        = some (build_candidate ["a", "b", "c", "d", "e", "f", "g"] 8 k).1 ∧
      joinPlayers (build_candidate ["a", "b", "c", "d", "e", "f", "g"] 8 k).1
        = ["a", "b", "c", "d", "e", "f", "g"] :=
  claim_C4 ["a", "b", "c", "d", "e", "f", "g"] 4 8 (by decide) (by decide) (by decide)

/-- C5 (implicit claim): for every non-empty participant list and every
max_size ≥ 3 (any target_size), the clamped per-pod sizes of the very
first candidate k = ceil(n / max_size) sum to at least n, so that
candidate is accepted; create_pods returns exactly its pods — hence
exactly ceil(n / max_size) of them — and the sequential fallback is never
invoked. -/
theorem claim_C5 (ps : List String) (t m : Int) (hps : ps ≠ []) (hm : 3 ≤ m) :
    ((ps.length : Nat) : Int)
      ≤ (build_candidate ps m (min_pods_of ((ps.length : Nat) : Int) m)).2 ∧
    accepts_candidate ps m (min_pods_of ((ps.length : Nat) : Int) m) = true ∧
    create_pods ps t m
      = some (build_candidate ps m (min_pods_of ((ps.length : Nat) : Int) m)).1 ∧
    (build_candidate ps m (min_pods_of ((ps.length : Nat) : Int) m)).1.length
      = (min_pods_of ((ps.length : Nat) : Int) m).toNat ∧
    (min_pods_of ((ps.length : Nat) : Int) m).toNat
      = (ps.length + m.toNat - 1) / m.toNat := by
  obtain ⟨hacc, hlen, hk1, hjoin, hub, hlb⟩ := first_candidate_spec ps m hps hm
  have hacc2 := hacc
  simp only [accepts_candidate, Bool.and_eq_true, decide_eq_true_eq] at hacc2
  refine ⟨hacc2.2, hacc, create_pods_eq_first ps t m hps hm, hlen, ?_⟩
  rw [min_pods_of_eq_nat _ _ (by positivity) (by omega)]
  simp only [Int.toNat_natCast]

theorem claim_C5_witness :
    ((4 : Nat) : Int) ≤ (build_candidate ["a", "b", "c", "d"] 3 (min_pods_of 4 3)).2 ∧
    accepts_candidate ["a", "b", "c", "d"] 3 (min_pods_of 4 3) = true ∧
    create_pods ["a", "b", "c", "d"] 10 3
      = some (build_candidate ["a", "b", "c", "d"] 3 (min_pods_of 4 3)).1 ∧
    (build_candidate ["a", "b", "c", "d"] 3 (min_pods_of 4 3)).1.length
      = (min_pods_of 4 3).toNat ∧
    (min_pods_of 4 3).toNat = (4 + (3 : Int).toNat - 1) / (3 : Int).toNat :=
  claim_C5 ["a", "b", "c", "d"] 10 3 (by decide) (by decide)

/-- C6 counterexample: create_pods raises a domain error after all — with
a non-empty participant list and max_size = 0, the floor division
computing min_pods divides by zero (modelled as none). -/
theorem claim_C6_counterexample : create_pods ["a"] 4 0 = none := by decide

/-- C6 amended: create_pods terminates normally (returns a value) for
every integer target_size and every integer max_size other than 0; an
empty list short-circuits to the empty result for all inputs including
max_size = 0; and target_size is silently clamped to max(3, min(t, m))
before use (passing the clamped value is indistinguishable), never
rejected. -/
theorem claim_C6_amended (ps : List String) (t m : Int) :
    (m ≠ 0 → ∃ pods, create_pods ps t m = some pods) ∧
    (ps = [] → create_pods ps t m = some []) ∧
    create_pods ps t m = create_pods ps (max 3 (min t m)) m := by
  have ht2 : 3 ≤ max 3 (min t m) := clamp_ge_three t m
  refine ⟨?_, ?_, ?_⟩
  · intro hm0
    by_cases hps : ps = []
    · exact ⟨[], by simp [create_pods, hps]⟩
    · rw [create_pods_eq_calculate ps t m hps]
      rcases hres : calculate_pod_distribution ps (max 3 (min t m)) m with _ | pods
      · exfalso
        unfold calculate_pod_distribution at hres
        rw [if_neg hm0, if_neg (by omega : ¬ (max 3 (min t m) = 0))] at hres
        dsimp only at hres
        cases hfind : (candidate_range (min_pods_of ((ps.length : Nat) : Int) m)
            (max_pods_of ((ps.length : Nat) : Int) (max 3 (min t m)))).find?
            (accepts_candidate ps m) with
        | none =>
          rw [hfind] at hres
          dsimp only at hres
          obtain ⟨r, hr⟩ := simple_distribution_total ps (max 3 (min t m)) m (by omega)
          rw [hr] at hres
          simp at hres
        | some k =>
          rw [hfind] at hres
          dsimp only at hres
          by_cases hemp : (build_candidate ps m k).1.isEmpty
          · rw [if_pos hemp] at hres
            obtain ⟨r, hr⟩ := simple_distribution_total ps (max 3 (min t m)) m (by omega)
            rw [hr] at hres
            simp at hres
          · rw [if_neg hemp] at hres
            simp at hres
      · exact ⟨pods, rfl⟩
  · intro h
    simp [create_pods, h]
  · by_cases hps : ps = []
    · simp [create_pods, hps]
    · rw [create_pods_eq_calculate ps t m hps, create_pods_eq_calculate ps _ m hps]
      have hidem : max 3 (min (max 3 (min t m)) m) = max 3 (min t m) := by omega
      rw [hidem]

theorem claim_C6_amended_witness :
    ∃ pods, create_pods ["a", "b"] 0 (-5) = some pods :=
  (claim_C6_amended ["a", "b"] 0 (-5)).1 (by decide)

/-- C7: get_statistics returns the pod count, the participant total equal
to the sum of the pods' stored sizes, the average equal to total divided
by pod count (0 for an empty pod list, with no division error), and — for
a non-empty pod list — attained minimum and maximum pod sizes. -/
theorem claim_C7 (pods : List Pod) :
    (get_statistics pods).total_pods = (pods.length : Int) ∧
    (get_statistics pods).total_players = (pods.map (fun p => p.size)).sum ∧
    (get_statistics pods).avg_pod_size
      = (if pods.isEmpty then 0
         else (((pods.map (fun p => p.size)).sum : Int) : ℚ)
            / (((pods.length : Nat) : Int) : ℚ)) ∧
    (pods ≠ [] →
      ∃ lo hi, (get_statistics pods).min_pod_size = some lo ∧
        (get_statistics pods).max_pod_size = some hi ∧
        lo ∈ pods.map (fun p => p.size) ∧ hi ∈ pods.map (fun p => p.size) ∧
        (∀ p ∈ pods, lo ≤ p.size ∧ p.size ≤ hi)) := by
  match pods with
  | [] =>
    refine ⟨by simp [get_statistics], by simp [get_statistics],
      by simp [get_statistics], by simp⟩
  | p :: rest =>
    refine ⟨rfl, rfl, by simp [get_statistics], ?_⟩
    intro _
    obtain ⟨lo, hlo⟩ : ∃ lo, ((p :: rest).map (fun q => q.size)).min? = some lo :=
      ⟨_, rfl⟩
    obtain ⟨hi, hhi⟩ : ∃ hi, ((p :: rest).map (fun q => q.size)).max? = some hi :=
      ⟨_, rfl⟩
    obtain ⟨hlomem, hlole⟩ := int_min?_spec _ lo hlo
    obtain ⟨himem, hile⟩ := int_max?_spec _ hi hhi
    refine ⟨lo, hi, hlo, hhi, hlomem, himem, ?_⟩
    intro q hq
    exact ⟨hlole _ (List.mem_map_of_mem _ hq), hile _ (List.mem_map_of_mem _ hq)⟩

theorem claim_C7_witness :
    (∃ lo hi,
      (get_statistics [Pod.mk 1 [] 4, Pod.mk 2 [] 3, Pod.mk 3 [] 5]).min_pod_size
        = some lo ∧
      (get_statistics [Pod.mk 1 [] 4, Pod.mk 2 [] 3, Pod.mk 3 [] 5]).max_pod_size
        = some hi ∧
      lo ∈ [Pod.mk 1 [] 4, Pod.mk 2 [] 3, Pod.mk 3 [] 5].map (fun p => p.size) ∧
      hi ∈ [Pod.mk 1 [] 4, Pod.mk 2 [] 3, Pod.mk 3 [] 5].map (fun p => p.size) ∧
      (∀ p ∈ [Pod.mk 1 [] 4, Pod.mk 2 [] 3, Pod.mk 3 [] 5],
        lo ≤ p.size ∧ p.size ≤ hi)) ∧
    (get_statistics [Pod.mk 1 [] 4, Pod.mk 2 [] 3, Pod.mk 3 [] 5]).total_players = 12 ∧
    (get_statistics [Pod.mk 1 [] 4, Pod.mk 2 [] 3, Pod.mk 3 [] 5]).total_pods = 3 ∧
    (get_statistics [Pod.mk 1 [] 4, Pod.mk 2 [] 3, Pod.mk 3 [] 5]).avg_pod_size = 4 ∧
    (get_statistics [Pod.mk 1 [] 4, Pod.mk 2 [] 3, Pod.mk 3 [] 5]).min_pod_size = some 3 ∧
    (get_statistics [Pod.mk 1 [] 4, Pod.mk 2 [] 3, Pod.mk 3 [] 5]).max_pod_size = some 5 :=
  ⟨(claim_C7 [Pod.mk 1 [] 4, Pod.mk 2 [] 3, Pod.mk 3 [] 5]).2.2.2 (by decide),
    by decide, by decide, by norm_num [get_statistics], by decide, by decide⟩

/-- C9 counterexample: get_history returns a shallow copy — the returned
list object holds the same pod-list reference (address 0) as the internal
log, and mutating that pod list through it changes what the internal log
shows.  The claim that modifications to the contained pod lists leave the
internal log unchanged is false. -/
theorem claim_C9_counterexample :
    readList (get_history (HistoryMem.mk [[0]] [[Pod.mk 1 ["a"] 1]]) 0).1
        (get_history (HistoryMem.mk [[0]] [[Pod.mk 1 ["a"] 1]]) 0).2 = [0] ∧
    renderHistory
        (writePods (get_history (HistoryMem.mk [[0]] [[Pod.mk 1 ["a"] 1]]) 0).1 0
          [Pod.mk 1 ["a", "b"] 2]) 0
      ≠ renderHistory (HistoryMem.mk [[0]] [[Pod.mk 1 ["a"] 1]]) 0 := by
  refine ⟨by decide, by decide⟩

/-- C9 amended: get_history allocates a fresh top-level list object (its
address differs from the internal one), so mutating the returned list
object itself leaves the internal history log — both the reference list
and its rendered contents — unchanged; the pod-list objects it contains,
however, are shared with the internal log. -/
theorem claim_C9_amended (mem : HistoryMem) (h : Nat) (v : List Nat)
    (hh : h < mem.listCells.length) :
    (get_history mem h).2 ≠ h ∧
    readList (writeList (get_history mem h).1 (get_history mem h).2 v) h
      = readList mem h ∧
    renderHistory (writeList (get_history mem h).1 (get_history mem h).2 v) h
      = renderHistory mem h :=
  ⟨get_history_fresh mem h hh, get_history_read_after_write mem h hh v,
    get_history_render_after_write mem h hh v⟩

theorem claim_C9_amended_witness :
    (get_history (HistoryMem.mk [[0]] [[Pod.mk 1 ["a"] 1]]) 0).2 ≠ 0 ∧
    readList
        (writeList (get_history (HistoryMem.mk [[0]] [[Pod.mk 1 ["a"] 1]]) 0).1
          (get_history (HistoryMem.mk [[0]] [[Pod.mk 1 ["a"] 1]]) 0).2 [5]) 0
      = readList (HistoryMem.mk [[0]] [[Pod.mk 1 ["a"] 1]]) 0 ∧
    renderHistory
        (writeList (get_history (HistoryMem.mk [[0]] [[Pod.mk 1 ["a"] 1]]) 0).1
          (get_history (HistoryMem.mk [[0]] [[Pod.mk 1 ["a"] 1]]) 0).2 [5]) 0
      = renderHistory (HistoryMem.mk [[0]] [[Pod.mk 1 ["a"] 1]]) 0 :=
  claim_C9_amended (HistoryMem.mk [[0]] [[Pod.mk 1 ["a"] 1]]) 0 [5] (by decide)

/-- C10 counterexample: with max_history_items = 0, appending
max_history_items + 1 = 1 entries retains that entry (Python
history[-0:] is the whole list), not the most recent 0 entries, so the
eviction claim fails at this input. -/
theorem claim_C10_counterexample :
    List.foldl (save_to_history_step (0 : Int)) ([] : List Nat) [1] = [1] ∧
    (List.foldl (save_to_history_step (0 : Int)) ([] : List Nat) [1]).length ≠ 0 := by
  refine ⟨by decide, by decide⟩

/-- C10 amended: for max_history_items ≥ 1, appending
max_history_items + k entries (k ≥ 1) through save_to_history retains
exactly the most recent max_history_items entries, in order, the oldest k
discarded first. -/
theorem claim_C10_amended (α : Type) (maxItems : Int) (k : Nat) (es : List α)
    (hmi : 1 ≤ maxItems) (hk : 1 ≤ k) (hlen : es.length = maxItems.toNat + k) :
    List.foldl (save_to_history_step maxItems) [] es = es.drop k := by
  rw [save_fold maxItems hmi es [] (by simp)]
  simp only [List.nil_append]
  congr 1
  omega

theorem claim_C10_amended_witness :
    List.foldl (save_to_history_step (2 : Int)) ([] : List Nat) [1, 2, 3] = [2, 3] := by
  rw [claim_C10_amended Nat 2 1 [1, 2, 3] (by decide) (by decide) (by decide)]
  rfl

end MtgPod
